import Mathlib

/-!
Shallow embedding of the per-tree training pipeline of the Arborist
random-forest trainer, together with proofs settling the frozen claims
about it.  Each definition mirrors one function of the C++ sources;
doubles are modelled as rationals and machine integers as naturals with
explicit widths where overflow matters.
-/

/-! ## SamplePath (src/ArboristCore/bottom.h) -/

/-- Restage-bucket computation of SamplePath::Path: the C expression
path AND NOT (0xff shifted left by del), evaluated in 32-bit integer
arithmetic after the usual promotions (path is an unsigned char, hence
below 256). -/
def SamplePath.Path (path del : ℕ) : ℕ :=
  Nat.land path (Nat.xor (255 <<< del) (2 ^ 32 - 1))

/-! ## SplitNux acceptance (src/split/splitnux.h) and CutSet::write
(src/split/cutset.cc).  The doubles involved are modelled as rationals;
every concrete input used below is exactly representable and the
operations on them are exact in IEEE double arithmetic. -/

/-- SplitNux::isInformative: admits a candidate of information gain
given threshold minInfo exactly when the gain strictly exceeds it
(source: return info greater than minInfo). -/
def SplitNux.isInformative (info minInfo : ℚ) : Bool :=
  decide (minInfo < info)

/-- SplitNux::getMinInfo: returns minRatio times the node information. -/
def SplitNux.getMinInfo (minRatio info : ℚ) : ℚ :=
  minRatio * info

/-- Guard of CutSet::write: the cut signature is recorded only when the
information of the nux is strictly positive. -/
def CutSet.writesCut (info : ℚ) : Bool :=
  decide (0 < info)

/-! ## SampledObs::isSampled (src/obs/sampledobs.h) -/

/-- Per-sample response summary (samplenux).  Only the fields the claim
touches are carried. -/
structure SampleNux where
  sCount : ℕ
  ySum : ℚ
deriving Repr, DecidableEq

/-- The sample map of one tree:  row2Sample maps each row to a sample
index (or a sentinel at least bagCount), sampleNux holds the per-sample
summaries. -/
structure SampledObs where
  row2Sample : List ℕ
  bagCount : ℕ
  sampleNux : List SampleNux
deriving Repr

/-- SampledObs::isSampled: looks up row2Sample, compares against
bagCount, and writes the output SampleNux only in the sampled case.
The triple returned models (return value, sampleIdx out-parameter,
nux out-parameter if written). -/
def SampledObs.isSampled (so : SampledObs) (row : ℕ) : Bool × ℕ × Option SampleNux :=
  let sampleIdx := so.row2Sample.getD row 0
  if sampleIdx < so.bagCount then
    (true, sampleIdx, some (so.sampleNux.getD sampleIdx ⟨0, 0⟩))
  else
    (false, sampleIdx, none)

/-! ## Frontier level loop (src/frontier/frontier.cc) -/

/-- Modelled from the spec: the per-node state of an IndexSet that the
termination rules read (indexset sources are absent from the tree; the
spec says a node terminalizes when unsplitable, and otherwise splits or
not according to the min-node / information / purity rules, which the
oracle flag doesSplit abstracts). -/
structure IndexSet where
  unsplitable : Bool
  doesSplit : Bool
deriving Repr, DecidableEq

/-- Modelled from the spec: IndexSet::setUnsplitable marks the node so
that it terminalizes. -/
def IndexSet.setUnsplitable (iSet : IndexSet) : IndexSet :=
  { iSet with unsplitable := true }

/-- Modelled from the spec: an IndexSet is terminal when marked
unsplitable or when the level fails to produce an informative split for
it. -/
def IndexSet.isTerminal (iSet : IndexSet) : Bool :=
  iSet.unsplitable || !iSet.doesSplit

/-- Frontier::earlyExit: on the level preceding totLevels every live
IndexSet is marked unsplitable. -/
def Frontier.earlyExit (totLevels level : ℕ) (nodes : List IndexSet) : List IndexSet :=
  if level + 1 = totLevels then nodes.map IndexSet.setUnsplitable else nodes

/-- Frontier::produce: each node that is not terminal contributes a
true-sense and a false-sense successor to the next level; the states of
the fresh nodes are supplied by the oracle succ. -/
def Frontier.produce (succ : ℕ → IndexSet) (nodes : List IndexSet) : List IndexSet :=
  (List.range (2 * (nodes.filter (fun iSet => !iSet.isTerminal)).length)).map succ

/-- The frontier entering each level of Frontier::levels: the loop body
applies earlyExit at the current level and then replaces the frontier by
the produced successors.  The oracle succ abstracts the split outcomes
recorded in the successor nodes. -/
def Frontier.frontierAt (succ : ℕ → ℕ → IndexSet) (root : List IndexSet)
    (totLevels : ℕ) : ℕ → List IndexSet
  | 0 => root
  | level + 1 =>
      Frontier.produce (succ level)
        (Frontier.earlyExit totLevels level (Frontier.frontierAt succ root totLevels level))

/-! ## Definition-map layer accounting
(src/core/bottom.cc, src/partition/defmap.cc, src/ArboristCore/bottom.h) -/

/-- PathNode::pathMax: a sample path holds 8 branching bits. -/
def NodePath.pathMax : ℕ := 8

/-- Modelled from the spec: NodePath::isRepresentable (path.h is absent
from the tree).  A deque of sz layers is representable while at most
pathMax back layers accompany the front layer; the capacity comment in
Bottom::flushRear reads one front layer plus pathMax back layers. -/
def NodePath.isRepresentable (sz : ℕ) : Bool :=
  decide (sz ≤ NodePath.pathMax)

/-- Number of rear layers flushed and erased by one Bottom::flushRear
call on a deque of d layers: one forced flush when the deque is no
longer representable, plus the voluntary flushes v of the purge and
threshold walks; both walks stop strictly before the front layer, so at
most d - 1 layers are ever flushed. -/
def Bottom.flushCount (v d : ℕ) : ℕ :=
  min ((if NodePath.isRepresentable d then 0 else 1) + v) (d - 1)

/-- One level of deque evolution: flushRear followed by erasure of the
flushed rear layers, then Bottom::overlap, which pushes a fresh front
layer unless the next level has no splitting nodes. -/
def Bottom.levelStep (v : ℕ) (push : Bool) (d : ℕ) : ℕ :=
  let dFlushed := d - Bottom.flushCount v d
  if push then dFlushed + 1 else dFlushed

/-- Deque length after a sequence of levels, starting from the single
root layer installed by the constructor. -/
def Bottom.layerCount (steps : List (ℕ × Bool)) : ℕ :=
  steps.foldl (fun d s => Bottom.levelStep s.1 s.2 d) 1

/-- The rear-to-front threshold walk of Bottom::flushRear: a rear layer
is flushed when its definition count is at most the remaining threshold,
which is then decremented by that count; the walk stops at the first
layer exceeding the remaining threshold.  The list holds the definition
counts of the back layers ordered rear to front. -/
def Bottom.rearWalk (thresh : ℕ) : List ℕ → ℕ
  | [] => 0
  | c :: rest => if c ≤ thresh then Bottom.rearWalk (thresh - c) rest + 1 else 0

/-- Bottom::efficiency = 0.15, the work-efficiency threshold, as an
exact rational. -/
def Bottom.efficiency : ℚ := 15 / 100

/-- The integer threshold backDef * efficiency of Bottom::flushRear.
The C++ computes it in doubles and converts to unsigned by truncation;
for every backDef below 2 to the 32 the two roundings return exactly the
nearest double to 0.15 times backDef, whose floor equals the exact floor
below, because the accumulated relative error (under 2 to the minus 52)
never bridges the gap of at least 1/20 separating 3 * backDef / 20 from
the nearest other integer. -/
def Bottom.flushThresh (backDef : ℕ) : ℕ :=
  3 * backDef / 20

/-- Bottom::flushRear restricted to its threshold walk: counts are the
back-layer definition counts, rear first; backDef is their sum. -/
def Bottom.flushRearWalk (counts : List ℕ) : ℕ :=
  Bottom.rearWalk (Bottom.flushThresh counts.sum) counts

/-- The rear-to-front walk with a fixed threshold, as the specification
sentence describes it: each rear layer is compared against the same
threshold and the walk stops at the first layer exceeding it. -/
def Bottom.claimedRearWalk (thresh : ℚ) : List ℕ → ℕ
  | [] => 0
  | c :: rest => if (c : ℚ) ≤ thresh then Bottom.claimedRearWalk thresh rest + 1 else 0

/-- The flush rule as the claim states it: a rear layer is flushed
exactly when its definition count is within the fixed threshold 0.15
times the combined back-definition count, walking rear to front and
stopping at the first layer not meeting the threshold. -/
def Bottom.claimedFlushRear (counts : List ℕ) : ℕ :=
  Bottom.claimedRearWalk (Bottom.efficiency * counts.sum) counts

/-! ## Sampler (src/forest/sampler.cc, src/forest/sampler.h) -/

/-- Sampler::locExp: log of the locality bin width. -/
def Sampler.locExp : ℕ := 18

/-- Sampler::binIdx: maps an index into its bin. -/
def Sampler.binIdx (idx : ℕ) : ℕ :=
  idx >>> Sampler.locExp

/-- Sampler::countSamples: tabulates a collection of indices by
occurrence, one increment per element. -/
def Sampler.countSamples (idx : List ℕ) : ℕ → ℕ :=
  idx.foldl (fun sc index => Function.update sc index (sc index + 1)) (fun _ => 0)

/-- First loop of Sampler::binIndices: per-bin populations. -/
def Sampler.binPop (idx : List ℕ) : ℕ → ℕ :=
  idx.foldl
    (fun bp val => Function.update bp (Sampler.binIdx val) (bp (Sampler.binIdx val) + 1))
    (fun _ => 0)

/-- Second loop of Sampler::binIndices: the in-place pass
binPop[i] += binPop[i-1] leaves in entry i the population of bins 0..i. -/
def Sampler.binPopAccum (bp : ℕ → ℕ) : ℕ → ℕ
  | 0 => bp 0
  | i + 1 => Sampler.binPopAccum bp i + bp (i + 1)

/-- Write loop of Sampler::binIndices: for each index, the destination
destIdx = idxAvail[binIdx index] is consumed (post-decremented, as a C
int) and the index is written to idxBinned[destIdx].  State is passed
explicitly: the available-slot table and the output array as a map from
int positions. -/
def Sampler.binPass : (ℕ → ℤ) → (ℤ → ℕ) → List ℕ → ((ℕ → ℤ) × (ℤ → ℕ))
  | avail, out, [] => (avail, out)
  | avail, out, index :: rest =>
      Sampler.binPass
        (Function.update avail (Sampler.binIdx index) (avail (Sampler.binIdx index) - 1))
        (Function.update out (avail (Sampler.binIdx index)) index)
        rest

/-- Sampler::binIndices: bins a vector of indices for coarse locality,
equivalent to the first pass of a radix sort.  The nObs argument only
sizes the bin vectors in the C++ and is immaterial to the totalized
tables used here. -/
def Sampler.binIndices (nObs : ℕ) (idx : List ℕ) : List ℕ :=
  let avail0 : ℕ → ℤ := fun i => (Sampler.binPopAccum (Sampler.binPop idx) i : ℤ) - 1
  (List.range idx.length).map
    (fun p : ℕ => (Sampler.binPass avail0 (fun _ => 0) idx).2 (p : ℤ))

/-- Row walk of Sampler::appendSamples: ascending over the given rows
with the previous retained row as explicit state, emitting a SamplerNux
(delRow, sCount) for every row with positive sample count; delRow is
row - exchange(rowPrev, row). -/
def Sampler.appendFrom (sCountRow : ℕ → ℕ) : ℕ → List ℕ → List (ℕ × ℕ)
  | _, [] => []
  | rowPrev, row :: rest =>
      if 0 < sCountRow row then
        (row - rowPrev, sCountRow row) :: Sampler.appendFrom sCountRow row rest
      else
        Sampler.appendFrom sCountRow rowPrev rest

/-- Sampler::appendSamples: tabulates the drawn indices (through the
locality binning when binIdx nObs is positive) and emits the compressed
SamplerNux records over rows 0..nObs-1. -/
def Sampler.appendSamples (nObs : ℕ) (idx : List ℕ) : List (ℕ × ℕ) :=
  let sCountRow :=
    if 0 < Sampler.binIdx nObs then Sampler.countSamples (Sampler.binIndices nObs idx)
    else Sampler.countSamples idx
  Sampler.appendFrom sCountRow 0 (List.range nObs)

/-- Prefix-sum walk of Sampler::sampledRows: row accumulates each
delRow and is recorded. -/
def Sampler.sampledRowsFrom : ℕ → List (ℕ × ℕ) → List ℕ
  | _, [] => []
  | row, nux :: rest => (row + nux.1) :: Sampler.sampledRowsFrom (row + nux.1) rest

/-- Sampler::sampledRows: recovers the sampled rows of a tree from its
SamplerNux block. -/
def Sampler.sampledRows (sbCresc : List (ℕ × ℕ)) : List ℕ :=
  Sampler.sampledRowsFrom 0 sbCresc

/-- One tree of Sampler::bagRows: walks the SamplerNux block with the
same prefix sums and sets the bit of every recovered row. -/
def Sampler.bagRowsBits : ℕ → (ℕ → Bool) → List (ℕ × ℕ) → (ℕ → Bool)
  | _, bits, [] => bits
  | row, bits, nux :: rest =>
      Sampler.bagRowsBits (row + nux.1) (Function.update bits (row + nux.1) true) rest

/-- Proof-side ledger of the writes performed by Sampler.binPass: the
list of (position, value) pairs in execution order. -/
def Sampler.binWrites (avail : ℕ → ℤ) : List ℕ → List (ℤ × ℕ)
  | [] => []
  | index :: rest =>
      (avail (Sampler.binIdx index), index) ::
        Sampler.binWrites
          (Function.update avail (Sampler.binIdx index) (avail (Sampler.binIdx index) - 1))
          rest

/-- Number of elements falling in bin c. -/
def Sampler.binCnt (c : ℕ) (l : List ℕ) : ℕ :=
  l.countP (fun v => decide (Sampler.binIdx v = c))

/-- Number of elements falling in bins 0..c. -/
def Sampler.binCum (c : ℕ) (l : List ℕ) : ℕ :=
  l.countP (fun v => decide (Sampler.binIdx v ≤ c))

/-- Separation invariant of the available-slot table relative to the
elements still to be written: the slot ranges of distinct bins are
disjoint. -/
def Sampler.availSep (avail : ℕ → ℤ) (l : List ℕ) : Prop :=
  ∀ c1 c2 : ℕ, c1 ≠ c2 →
    avail c2 ≤ avail c1 - Sampler.binCnt c1 l ∨ avail c1 ≤ avail c2 - Sampler.binCnt c2 l

/-! ## Multi-class factor splitting, SFCartCtg::splitRuns
(src/cart/sfcart.cc) -/

/-- Modelled from the spec: SplitAccumCtg::infoSplit (the splitaccum
sources are absent from the tree).  Computes the Gini information
ssL/sumL + ssR/sumR, overwrites the running candidate information when
strictly improved, and reports whether it did. -/
def SplitAccumCtg.infoSplit (ssL ssR sumL sumR info : ℚ) : Bool × ℚ :=
  let infoTrial := ssL / sumL + ssR / sumR
  if info < infoTrial then (true, infoTrial) else (false, info)

/-- Inner slot loop of SFCartCtg::splitRuns: the sum at one category
over the run slots selected by the subset mask (subset AND (1 shifted
by slot) nonzero), reading getSumCtg per selected slot.  The per-slot
per-category run sums are abstracted by runSum, since the runset
sources are absent from the tree. -/
def SFCartCtg.subsetSumCtg (runSum : ℕ → ℕ → ℚ) (slotSup subset yCtg : ℕ) : ℚ :=
  (((List.range slotSup).filter (fun slot => subset.testBit slot)).map
    (fun slot => runSum slot yCtg)).sum

/-- Category loop of SFCartCtg::splitRuns: accumulates
(sumL, ssL, ssR) over the per-category node sums ctgSum, yCtg running
with the position. -/
def SFCartCtg.subsetAccum (ctgSum : List ℚ) (runSum : ℕ → ℕ → ℚ)
    (slotSup subset : ℕ) : ℚ × ℚ × ℚ :=
  (ctgSum.enum).foldl
    (fun acc pair =>
      let slotSum := SFCartCtg.subsetSumCtg runSum slotSup subset pair.1
      (acc.1 + slotSum, acc.2.1 + slotSum * slotSum,
        acc.2.2 + (pair.2 - slotSum) * (pair.2 - slotSum)))
    (0, 0, 0)

/-- The Gini information splitRuns evaluates for one subset. -/
def SFCartCtg.subsetInfo (ctgSum : List ℚ) (runSum : ℕ → ℕ → ℚ) (sum : ℚ)
    (slotSup subset : ℕ) : ℚ :=
  let m := SFCartCtg.subsetAccum ctgSum runSum slotSup subset
  m.2.1 / m.1 + m.2.2 / (sum - m.1)

/-- SFCartCtg::splitRuns: with slotSup one less than the effective run
count returned by runSet->deWide, walks the binary-encoded nonempty
subsets 1 .. (1 shifted by slotSup) - 1 of the low slots, evaluates each
through infoSplit against the running candidate information, and records
the latest strictly-improving subset in lhBits (0 when none improves).
Returns (lhBits, final info). -/
def SFCartCtg.splitRuns (ctgSum : List ℚ) (runSum : ℕ → ℕ → ℚ) (sum : ℚ)
    (deWideResult : ℕ) (info0 : ℚ) : ℕ × ℚ :=
  let slotSup := deWideResult - 1
  (List.range' 1 ((1 <<< slotSup) - 1)).foldl
    (fun st subset =>
      let m := SFCartCtg.subsetAccum ctgSum runSum slotSup subset
      let r := SplitAccumCtg.infoSplit m.2.1 m.2.2 m.1 (sum - m.1) st.2
      if r.1 then (subset, r.2) else (st.1, r.2))
    (0, info0)

/-! ## Factor level remapping at prediction
(src/ArboristBridgeR/Shared/framemapBridge.cc) -/

/-- The one-based match table of FactorRemap for one column: each test
level is sent to its one-based position among the training levels, or
to the proxy code colTrain.length() + 1 when unseen (the assignment
performed after the warning is issued). -/
def FramemapBridge.colMatchOf (colTest colTrain : List ℕ) : List ℕ :=
  colTest.map (fun s =>
    match colTrain.indexOf? s with
    | some i => i + 1
    | none => colTrain.length + 1)

/-- Whether the column has a test level not observed in training, i.e.
whether idxNonMatch is nonempty, which triggers the warning. -/
def FramemapBridge.anyNonMatch (colTest colTrain : List ℕ) : Bool :=
  colTest.any (fun s => !(colTrain.contains s))

/-- FramemapBridge::FactorRemap on one factor column: when the level
vectors differ, the zero-based level codes of the column are recoded
through the match table shifted down by one, and the warning flag
reports whether any level was unseen; identical level vectors leave the
column untouched.  The any(colTest != colTrain) guard of the source
coincides with vector disequality because factor levels are distinct. -/
def FramemapBridge.factorRemapCol (colTest colTrain : List ℕ) (xCol : List ℕ) :
    List ℕ × Bool :=
  if colTest = colTrain then (xCol, false)
  else
    (xCol.map (fun c => (FramemapBridge.colMatchOf colTest colTrain).getD c 0 - 1),
      FramemapBridge.anyNonMatch colTest colTrain)

/-! ## Theorems -/

set_option maxRecDepth 40000 in
/-- Finite check behind the SamplePath bucket identity. -/
theorem SamplePath.path_mask_aux :
    ∀ p < 256, ∀ d < 9,
      SamplePath.Path p d = Nat.land p ((1 <<< d) - 1) ∧
      SamplePath.Path p d = p % 2 ^ d := by
  decide

/-- C5: for every sample path byte p (below 256) and back-level del in
[0, 8], the restage bucket computed by SamplePath::Path, namely
p AND NOT (0xff shifted by del), equals p AND ((1 shifted by del) - 1),
i.e. exactly the low del bits of the recent branching path. -/
theorem SamplePath.path_low_bits (p d : ℕ) (hp : p < 256) (hd : d ≤ 8) :
    SamplePath.Path p d = Nat.land p ((1 <<< d) - 1) ∧
    SamplePath.Path p d = p % 2 ^ d :=
  SamplePath.path_mask_aux p hp d (Nat.lt_succ_of_le hd)

/-- Witness for C5 at p = 0xb7, del = 3. -/
theorem SamplePath.path_low_bits_witness :
    SamplePath.Path 183 3 = Nat.land 183 ((1 <<< 3) - 1) ∧
    SamplePath.Path 183 3 = 183 % 2 ^ 3 :=
  SamplePath.path_low_bits 183 3 (by decide) (by decide)

/-- C8 counterexample: the claim says a candidate with gain g is
admitted if and only if g is at least minRatio times the parent
information.  At minRatio = 1, parent info 1 and gain 1 (all exactly
representable, products exact), the code rejects the candidate although
the claimed inequality holds, because isInformative compares strictly. -/
theorem SplitNux.minRatio_boundary_counterexample :
    ¬ (SplitNux.isInformative 1 (SplitNux.getMinInfo 1 1) = true ↔
        (1 : ℚ) * 1 ≤ 1) := by
  simp only [SplitNux.isInformative, SplitNux.getMinInfo, decide_eq_true_eq]
  norm_num

/-- C8 (amended): a candidate with gain g is admitted against a parent
of information I exactly when g strictly exceeds minRatio times I; in
particular, for nonnegative minRatio and parent information, a zero-gain
candidate is never admitted, and CutSet::write never records a cut
signature for a zero-information nux. -/
theorem SplitNux.isInformative_strict (minRatio I g : ℚ) :
    (SplitNux.isInformative g (SplitNux.getMinInfo minRatio I) = true ↔
      minRatio * I < g) ∧
    (0 ≤ minRatio → 0 ≤ I →
      SplitNux.isInformative 0 (SplitNux.getMinInfo minRatio I) = false) ∧
    CutSet.writesCut 0 = false := by
  refine ⟨?_, ?_, by simp [CutSet.writesCut]⟩
  · simp [SplitNux.isInformative, SplitNux.getMinInfo]
  · intro hm hI
    simp only [SplitNux.isInformative, SplitNux.getMinInfo, decide_eq_false_iff_not, not_lt]
    exact mul_nonneg hm hI

/-- Witness for C8 at minRatio = 1/2, I = 2, g = 3/2. -/
theorem SplitNux.isInformative_strict_witness :
    SplitNux.isInformative 0 (SplitNux.getMinInfo (1/2) 2) = false :=
  (SplitNux.isInformative_strict (1/2) 2 (3/2)).2.1 (by norm_num) (by norm_num)

/-- C10: isSampled reports true exactly when the row2Sample entry is
below bagCount; the output SampleNux is written exactly in the sampled
case; and whenever sampleNux has length bagCount (its construction
invariant), the sample index returned for an in-bag row is a valid index
into sampleNux. -/
theorem SampledObs.isSampled_iff (so : SampledObs) (row : ℕ) :
    ((so.isSampled row).1 = true ↔ so.row2Sample.getD row 0 < so.bagCount) ∧
    ((so.isSampled row).2.2.isSome = (so.isSampled row).1) ∧
    (so.sampleNux.length = so.bagCount → (so.isSampled row).1 = true →
      (so.isSampled row).2.1 < so.sampleNux.length) := by
  unfold SampledObs.isSampled
  by_cases h : so.row2Sample.getD row 0 < so.bagCount
  · simp only [h, if_pos]
    exact ⟨by simp [h], rfl, fun hlen _ => by simpa [hlen] using h⟩
  · simp only [h, if_neg]
    simp [h]

/-- Witness for C10: a two-row sample map with one in-bag row. -/
theorem SampledObs.isSampled_iff_witness :
    ((SampledObs.mk [0, 5] 1 [⟨2, 3⟩]).isSampled 0).1 = true ∧
    ((SampledObs.mk [0, 5] 1 [⟨2, 3⟩]).isSampled 0).2.1 <
      (SampledObs.mk [0, 5] 1 [⟨2, 3⟩]).sampleNux.length :=
  ⟨by decide,
   (SampledObs.isSampled_iff (SampledObs.mk [0, 5] 1 [⟨2, 3⟩]) 0).2.2 (by decide) (by decide)⟩

/-- Producing from an empty frontier yields an empty frontier. -/
theorem Frontier.produce_nil (succ : ℕ → IndexSet) :
    Frontier.produce succ [] = [] := by
  simp [Frontier.produce]

/-- C1: the level loop of Frontier::levels runs out of live nodes after
at most totLevels levels: for every oracle of split outcomes, every root
frontier, and every totLevels at least 1, the frontier entering any
level at or beyond totLevels is empty, so per-tree training terminates
with pre-tree height at most totLevels. -/
theorem Frontier.levels_capped (succ : ℕ → ℕ → IndexSet) (root : List IndexSet)
    (totLevels n : ℕ) (h1 : 1 ≤ totLevels) (h2 : totLevels ≤ n) :
    Frontier.frontierAt succ root totLevels n = [] := by
  obtain ⟨m, rfl⟩ : ∃ m, n = totLevels + m := ⟨n - totLevels, by omega⟩
  induction m with
  | zero =>
      obtain ⟨l, rfl⟩ : ∃ l, totLevels = l + 1 := ⟨totLevels - 1, by omega⟩
      show Frontier.frontierAt succ root (l + 1) (l + 1) = []
      rw [Frontier.frontierAt]
      have hfire : Frontier.earlyExit (l + 1) l
          (Frontier.frontierAt succ root (l + 1) l) =
          (Frontier.frontierAt succ root (l + 1) l).map IndexSet.setUnsplitable := by
        simp [Frontier.earlyExit]
      rw [hfire]
      have hterm : ((Frontier.frontierAt succ root (l + 1) l).map
          IndexSet.setUnsplitable).filter (fun iSet => !iSet.isTerminal) = [] := by
        apply List.filter_eq_nil_iff.mpr
        intro a ha
        obtain ⟨b, _, rfl⟩ := List.mem_map.mp ha
        simp [IndexSet.setUnsplitable, IndexSet.isTerminal]
      simp [Frontier.produce, hterm]
  | succ k ih =>
      have : totLevels + (k + 1) = (totLevels + k) + 1 := by omega
      rw [this, Frontier.frontierAt, ih (by omega)]
      simp [Frontier.earlyExit, Frontier.produce]

/-- Witness for C1 with totLevels = 2 and a root that always splits. -/
theorem Frontier.levels_capped_witness :
    Frontier.frontierAt (fun _ _ => ⟨false, true⟩) [⟨false, true⟩] 2 3 = [] :=
  Frontier.levels_capped (fun _ _ => ⟨false, true⟩) [⟨false, true⟩] 2 3
    (by decide) (by decide)

/-- flushRear never erases the front layer. -/
theorem Bottom.flushCount_le (v d : ℕ) : Bottom.flushCount v d ≤ d - 1 :=
  Nat.min_le_right _ _

/-- When the deque is no longer representable, flushRear flushes at
least the rearmost layer. -/
theorem Bottom.flushCount_forced (v d : ℕ) (h : NodePath.pathMax < d) :
    1 ≤ Bottom.flushCount v d := by
  unfold Bottom.flushCount
  rw [show NodePath.isRepresentable d = false from
    decide_eq_false (by omega)]
  simp only [Bool.false_eq_true, if_false]
  have hd : 1 ≤ d - 1 := by
    have : 2 ≤ d := by
      have := NodePath.pathMax
      simp only [NodePath.pathMax] at h
      omega
    omega
  omega

/-- One level step keeps the deque length within one front layer plus
pathMax back layers, and keeps at least the front layer. -/
theorem Bottom.levelStep_bound (v : ℕ) (push : Bool) (d : ℕ)
    (h1 : 1 ≤ d) (h2 : d ≤ 1 + NodePath.pathMax) :
    1 ≤ Bottom.levelStep v push d ∧ Bottom.levelStep v push d ≤ 1 + NodePath.pathMax := by
  have hle := Bottom.flushCount_le v d
  unfold Bottom.levelStep
  by_cases hd : d ≤ NodePath.pathMax
  · cases push <;> simp only [Bool.false_eq_true, if_false, if_true] <;> omega
  · have hforced := Bottom.flushCount_forced v d (by omega)
    cases push <;> simp only [Bool.false_eq_true, if_false, if_true] <;> omega

/-- C4: at every point of training the definition-map deque retains at
most pathMax = 8 back layers besides the front layer: the deque length
never exceeds 1 + pathMax after any sequence of levels, and within a
level the flush performed by flushRear before the overlap push already
brings the length down to at most pathMax, so the subsequent push stays
representable. -/
theorem Bottom.layerCount_bounded (steps : List (ℕ × Bool)) :
    (1 ≤ Bottom.layerCount steps ∧
      Bottom.layerCount steps ≤ 1 + NodePath.pathMax) ∧
    ∀ v, Bottom.layerCount steps - Bottom.flushCount v (Bottom.layerCount steps) ≤
      NodePath.pathMax := by
  have main : ∀ (l : List (ℕ × Bool)) (d : ℕ), 1 ≤ d → d ≤ 1 + NodePath.pathMax →
      1 ≤ l.foldl (fun d s => Bottom.levelStep s.1 s.2 d) d ∧
      l.foldl (fun d s => Bottom.levelStep s.1 s.2 d) d ≤ 1 + NodePath.pathMax := by
    intro l
    induction l with
    | nil => intro d h1 h2; exact ⟨h1, h2⟩
    | cons s rest ih =>
        intro d h1 h2
        have hstep := Bottom.levelStep_bound s.1 s.2 d h1 h2
        exact ih _ hstep.1 hstep.2
  have hmain := main steps 1 (le_refl 1) (by simp [NodePath.pathMax])
  refine ⟨hmain, ?_⟩
  intro v
  set d := Bottom.layerCount steps with hd
  have h1 : 1 ≤ d := hmain.1
  have h2 : d ≤ 1 + NodePath.pathMax := hmain.2
  by_cases hrep : d ≤ NodePath.pathMax
  · omega
  · have hforced := Bottom.flushCount_forced v d (by omega)
    have hle := Bottom.flushCount_le v d
    omega

/-- The threshold walk flushes precisely the maximal rear run of layers
whose cumulative definition count stays within the budget. -/
theorem Bottom.rearWalk_take (thresh n : ℕ) (counts : List ℕ) :
    n ≤ Bottom.rearWalk thresh counts ↔
      n ≤ counts.length ∧ (counts.take n).sum ≤ thresh := by
  induction counts generalizing thresh n with
  | nil =>
      cases n with
      | zero => simp [Bottom.rearWalk]
      | succ m => simp [Bottom.rearWalk]
  | cons c rest ih =>
      cases n with
      | zero => simp
      | succ m =>
          rw [Bottom.rearWalk]
          by_cases hc : c ≤ thresh
          · rw [if_pos hc]
            have := ih (thresh - c) m
            simp only [List.take_succ_cons, List.sum_cons, List.length_cons]
            constructor
            · intro h
              have hm := this.mp (by omega)
              exact ⟨by omega, by omega⟩
            · intro h
              have hm := this.mpr ⟨by omega, by omega⟩
              omega
          · rw [if_neg hc]
            simp only [List.take_succ_cons, List.sum_cons, List.length_cons]
            omega

/-- C6 counterexample: with back-layer definition counts 2, 2, 16 from
the rear, the combined count is 20 and the threshold 0.15 * 20 = 3; the
claimed rule flushes the two rear layers (each count 2 is within 3), but
the code flushes only the rearmost layer, because its walk decrements
the remaining threshold to 1 before examining the second layer. -/
theorem Bottom.flushRear_claim_counterexample :
    Bottom.flushRearWalk [2, 2, 16] ≠ Bottom.claimedFlushRear [2, 2, 16] := by
  have hcode : Bottom.flushRearWalk [2, 2, 16] = 1 := by
    simp [Bottom.flushRearWalk, Bottom.flushThresh, Bottom.rearWalk]
  have hsum : ([2, 2, 16] : List ℕ).sum = 20 := by decide
  have hclaim : Bottom.claimedFlushRear [2, 2, 16] = 2 := by
    unfold Bottom.claimedFlushRear
    rw [hsum]
    have hthresh : Bottom.efficiency * (20 : ℕ) = 3 := by
      simp [Bottom.efficiency]
      norm_num
    rw [hthresh]
    rw [Bottom.claimedRearWalk]
    rw [if_pos (by norm_num)]
    rw [Bottom.claimedRearWalk]
    rw [if_pos (by norm_num)]
    rw [Bottom.claimedRearWalk]
    rw [if_neg (by norm_num)]
  rw [hcode, hclaim]
  decide

/-- C6 (amended): during flushRear the rear layers flushed and popped
are exactly the maximal rear-to-front run whose cumulative definition
count stays within the budget, where the budget is the floor of 0.15
times the combined definition count of all back layers and is consumed
by each flushed layer in turn; the walk stops at the first layer whose
count exceeds the remaining budget.  The integer budget flushThresh
agrees with the floor of the exact product with efficiency = 0.15. -/
theorem Bottom.flushRear_budget (counts : List ℕ) (n : ℕ) :
    (n ≤ Bottom.flushRearWalk counts ↔
      n ≤ counts.length ∧
        (counts.take n).sum ≤ Bottom.flushThresh counts.sum) ∧
    (Bottom.flushThresh counts.sum : ℤ) =
      ⌊Bottom.efficiency * (counts.sum : ℚ)⌋ := by
  constructor
  · exact Bottom.rearWalk_take (Bottom.flushThresh counts.sum) n counts
  · have hprod : Bottom.efficiency * (counts.sum : ℚ) =
        ((15 * counts.sum : ℕ) : ℚ) / ((100 : ℕ) : ℚ) := by
      unfold Bottom.efficiency
      push_cast
      ring
    rw [hprod, Rat.floor_natCast_div_natCast]
    norm_cast
    unfold Bottom.flushThresh
    omega

/-- The tabulation loop of countSamples counts occurrences. -/
theorem Sampler.countSamples_apply (idx : List ℕ) (r : ℕ) :
    Sampler.countSamples idx r = idx.count r := by
  have main : ∀ (l : List ℕ) (sc : ℕ → ℕ),
      (l.foldl (fun sc index => Function.update sc index (sc index + 1)) sc) r =
        sc r + l.count r := by
    intro l
    induction l with
    | nil => intro sc; simp
    | cons a t ih =>
        intro sc
        rw [List.foldl_cons, ih, List.count_cons]
        by_cases hra : r = a
        · subst hra
          simp
          omega
        · rw [Function.update_noteq hra]
          have hba : (a == r) = false := beq_eq_false_iff_ne.mpr (fun h => hra h.symm)
          rw [hba]
          simp
  simpa using main idx (fun _ => 0)

/-- The first binIndices loop tabulates bin populations. -/
theorem Sampler.binPop_apply (idx : List ℕ) (b : ℕ) :
    Sampler.binPop idx b = Sampler.binCnt b idx := by
  have main : ∀ (l : List ℕ) (bp : ℕ → ℕ),
      (l.foldl (fun bp val =>
          Function.update bp (Sampler.binIdx val) (bp (Sampler.binIdx val) + 1)) bp) b =
        bp b + Sampler.binCnt b l := by
    intro l
    induction l with
    | nil => intro bp; simp [Sampler.binCnt]
    | cons a t ih =>
        intro bp
        rw [List.foldl_cons, ih]
        unfold Sampler.binCnt
        rw [List.countP_cons]
        by_cases hba : Sampler.binIdx a = b
        · rw [hba, Function.update_same]
          simp [Sampler.binCnt]
          omega
        · rw [Function.update_noteq (fun h => hba h.symm)]
          simp [Sampler.binCnt, hba]
  simpa [Sampler.binCnt] using main idx (fun _ => 0)

/-- Splitting a cumulative bin count at its top bin. -/
theorem Sampler.binCum_succ (c : ℕ) (l : List ℕ) :
    Sampler.binCum (c + 1) l = Sampler.binCum c l + Sampler.binCnt (c + 1) l := by
  induction l with
  | nil => simp [Sampler.binCum, Sampler.binCnt]
  | cons a t ih =>
      unfold Sampler.binCum Sampler.binCnt at ih ⊢
      rw [List.countP_cons, List.countP_cons, List.countP_cons, ih]
      simp only [decide_eq_true_eq]
      split_ifs <;> omega

/-- The accumulation loop turns populations into cumulative counts. -/
theorem Sampler.binPopAccum_eq (l : List ℕ) (c : ℕ) :
    Sampler.binPopAccum (Sampler.binPop l) c = Sampler.binCum c l := by
  induction c with
  | zero =>
      rw [Sampler.binPopAccum, Sampler.binPop_apply]
      unfold Sampler.binCnt Sampler.binCum
      apply List.countP_congr
      intro v _
      simp [Nat.le_zero]
  | succ c ih =>
      rw [Sampler.binPopAccum, ih, Sampler.binPop_apply, Sampler.binCum_succ]

/-- Bin counts of lower bins never exceed the cumulative count, jointly
with a disjoint higher bin. -/
theorem Sampler.binCum_add_binCnt_le (c1 c2 : ℕ) (hc : c1 < c2) (l : List ℕ) :
    Sampler.binCum c1 l + Sampler.binCnt c2 l ≤ Sampler.binCum c2 l := by
  induction l with
  | nil => simp [Sampler.binCum, Sampler.binCnt]
  | cons a t ih =>
      unfold Sampler.binCum Sampler.binCnt at ih ⊢
      rw [List.countP_cons, List.countP_cons, List.countP_cons]
      simp only [decide_eq_true_eq]
      split_ifs <;> omega

/-- A bin count never exceeds the cumulative count up to that bin. -/
theorem Sampler.binCnt_le_binCum (c : ℕ) (l : List ℕ) :
    Sampler.binCnt c l ≤ Sampler.binCum c l := by
  unfold Sampler.binCnt Sampler.binCum
  apply List.countP_mono_left
  intro v _
  simp only [decide_eq_true_eq]
  omega

/-- A cumulative bin count never exceeds the list length. -/
theorem Sampler.binCum_le_length (c : ℕ) (l : List ℕ) :
    Sampler.binCum c l ≤ l.length :=
  List.countP_le_length _

/-- Unfolding a bin count over a cons cell. -/
theorem Sampler.binCnt_cons (c v : ℕ) (rest : List ℕ) :
    Sampler.binCnt c (v :: rest) =
      Sampler.binCnt c rest + if Sampler.binIdx v = c then 1 else 0 := by
  unfold Sampler.binCnt
  rw [List.countP_cons]
  by_cases h : Sampler.binIdx v = c
  · rw [if_pos h, if_pos (by simpa using h)]
  · rw [if_neg h, if_neg (by simpa using h)]

/-- The write ledger records exactly the processed values, in order. -/
theorem Sampler.binWrites_map_snd (l : List ℕ) :
    ∀ avail : ℕ → ℤ, (Sampler.binWrites avail l).map Prod.snd = l := by
  induction l with
  | nil => intro avail; rfl
  | cons v rest ih =>
      intro avail
      rw [Sampler.binWrites, List.map_cons, ih]

/-- Every write to a bin lands inside the slot interval the
available-slot table reserves for that bin. -/
theorem Sampler.binWrites_pos_bounds (l : List ℕ) :
    ∀ (avail : ℕ → ℤ) (pr : ℤ × ℕ), pr ∈ Sampler.binWrites avail l →
      avail (Sampler.binIdx pr.2) - Sampler.binCnt (Sampler.binIdx pr.2) l < pr.1 ∧
      pr.1 ≤ avail (Sampler.binIdx pr.2) := by
  induction l with
  | nil => intro avail pr hpr; cases hpr
  | cons v rest ih =>
      intro avail pr hpr
      rw [Sampler.binWrites] at hpr
      have hcnt : ∀ c, Sampler.binCnt c (v :: rest) =
          Sampler.binCnt c rest + if Sampler.binIdx v = c then 1 else 0 :=
        fun c => Sampler.binCnt_cons c v rest
      rcases List.mem_cons.mp hpr with hhd | htl
      · subst hhd
        have := hcnt (Sampler.binIdx v)
        simp only [if_pos rfl] at this
        constructor
        · simp only []
          rw [this]
          have : (0 : ℤ) ≤ Sampler.binCnt (Sampler.binIdx v) rest := Int.ofNat_nonneg _
          push_cast
          omega
        · exact le_refl _
      · have hb := ih _ pr htl
        by_cases hc : Sampler.binIdx pr.2 = Sampler.binIdx v
        · rw [hc] at hb ⊢
          rw [Function.update_same] at hb
          have := hcnt (Sampler.binIdx v)
          rw [if_pos rfl] at this
          rw [this]
          push_cast
          omega
        · rw [Function.update_noteq hc] at hb
          have := hcnt (Sampler.binIdx pr.2)
          rw [if_neg (fun h => hc h.symm)] at this
          rw [this]
          push_cast
          omega

/-- The separation invariant survives one write. -/
theorem Sampler.availSep_step (v : ℕ) (rest : List ℕ) (avail : ℕ → ℤ)
    (h : Sampler.availSep avail (v :: rest)) :
    Sampler.availSep
      (Function.update avail (Sampler.binIdx v) (avail (Sampler.binIdx v) - 1)) rest := by
  intro c1 c2 hne
  have h12 := h c1 c2 hne
  rw [Sampler.binCnt_cons c1 v rest, Sampler.binCnt_cons c2 v rest] at h12
  by_cases hv1 : Sampler.binIdx v = c1
  · subst hv1
    rw [if_pos rfl, if_neg hne] at h12
    rw [Function.update_same, Function.update_noteq (Ne.symm hne)]
    push_cast at h12
    rcases h12 with h12 | h12
    · left; omega
    · right; omega
  · by_cases hv2 : Sampler.binIdx v = c2
    · subst hv2
      rw [if_neg hv1, if_pos rfl] at h12
      rw [Function.update_same, Function.update_noteq (Ne.symm hv1)]
      push_cast at h12
      rcases h12 with h12 | h12
      · left; omega
      · right; omega
    · rw [if_neg hv1, if_neg hv2] at h12
      rw [Function.update_noteq (Ne.symm hv1), Function.update_noteq (Ne.symm hv2)]
      push_cast at h12
      rcases h12 with h12 | h12
      · left; omega
      · right; omega

/-- Under separation, the position consumed for the head element never
recurs among the later writes. -/
theorem Sampler.binWrites_fresh (v : ℕ) (rest : List ℕ) (avail : ℕ → ℤ)
    (h : Sampler.availSep avail (v :: rest)) :
    ∀ pr ∈ Sampler.binWrites
        (Function.update avail (Sampler.binIdx v) (avail (Sampler.binIdx v) - 1)) rest,
      pr.1 ≠ avail (Sampler.binIdx v) := by
  intro pr hpr heq
  have hb := Sampler.binWrites_pos_bounds rest _ pr hpr
  by_cases hc : Sampler.binIdx pr.2 = Sampler.binIdx v
  · rw [hc, Function.update_same] at hb
    omega
  · rw [Function.update_noteq hc] at hb
    have hsep := h (Sampler.binIdx pr.2) (Sampler.binIdx v) hc
    rw [Sampler.binCnt_cons (Sampler.binIdx pr.2) v rest,
      Sampler.binCnt_cons (Sampler.binIdx v) v rest] at hsep
    rw [if_neg (fun hh => hc hh.symm), if_pos rfl] at hsep
    rcases hsep with hs | hs <;> push_cast at hs hb <;> omega

/-- Under separation the write positions are pairwise distinct. -/
theorem Sampler.binWrites_nodup (l : List ℕ) :
    ∀ avail : ℕ → ℤ, Sampler.availSep avail l →
      ((Sampler.binWrites avail l).map Prod.fst).Nodup := by
  induction l with
  | nil => intro avail _; simp [Sampler.binWrites]
  | cons v rest ih =>
      intro avail hsep
      rw [Sampler.binWrites, List.map_cons]
      refine List.nodup_cons.mpr ⟨?_, ih _ (Sampler.availSep_step v rest avail hsep)⟩
      intro hmem
      obtain ⟨pr, hpr, hpr1⟩ := List.mem_map.mp hmem
      exact Sampler.binWrites_fresh v rest avail hsep pr hpr hpr1

/-- A position no write touches retains its prior contents. -/
theorem Sampler.binPass_untouched (l : List ℕ) :
    ∀ (avail : ℕ → ℤ) (out : ℤ → ℕ) (p : ℤ),
      p ∉ (Sampler.binWrites avail l).map Prod.fst →
      (Sampler.binPass avail out l).2 p = out p := by
  induction l with
  | nil => intro avail out p _; rfl
  | cons v rest ih =>
      intro avail out p hp
      rw [Sampler.binWrites, List.map_cons, List.mem_cons] at hp
      push_neg at hp
      rw [Sampler.binPass, ih _ _ _ hp.2]
      exact Function.update_noteq hp.1 _ _

/-- Under separation, the final array holds at each written position the
value written there. -/
theorem Sampler.binPass_writes (l : List ℕ) :
    ∀ (avail : ℕ → ℤ) (out : ℤ → ℕ) (pr : ℤ × ℕ),
      Sampler.availSep avail l → pr ∈ Sampler.binWrites avail l →
      (Sampler.binPass avail out l).2 pr.1 = pr.2 := by
  induction l with
  | nil => intro _ _ _ _ hpr; cases hpr
  | cons v rest ih =>
      intro avail out pr hsep hpr
      rw [Sampler.binWrites] at hpr
      rcases List.mem_cons.mp hpr with hhd | htl
      · subst hhd
        rw [Sampler.binPass]
        have hfresh := Sampler.binWrites_fresh v rest avail hsep
        have hnotin : (avail (Sampler.binIdx v) : ℤ) ∉
            (Sampler.binWrites
              (Function.update avail (Sampler.binIdx v) (avail (Sampler.binIdx v) - 1))
              rest).map Prod.fst := by
          intro hmem
          obtain ⟨qr, hqr, hqr1⟩ := List.mem_map.mp hmem
          exact hfresh qr hqr hqr1
        rw [Sampler.binPass_untouched rest _ _ _ hnotin]
        exact Function.update_same _ _ _
      · rw [Sampler.binPass]
        exact ih _ _ pr (Sampler.availSep_step v rest avail hsep) htl

/-- The initial available-slot table of binIndices separates the bins:
bin c owns the slots from the cumulative count below c up to one less
than the cumulative count through c. -/
theorem Sampler.availSep_init (l : List ℕ) :
    Sampler.availSep (fun i => (Sampler.binCum i l : ℤ) - 1) l := by
  intro c1 c2 hne
  rcases Nat.lt_or_ge c1 c2 with hlt | hge
  · right
    have := Sampler.binCum_add_binCnt_le c1 c2 hlt l
    push_cast
    omega
  · left
    have hlt : c2 < c1 := by omega
    have := Sampler.binCum_add_binCnt_le c2 c1 hlt l
    push_cast
    omega

/-- Unfolding of binIndices through its local tables. -/
theorem Sampler.binIndices_def (nObs : ℕ) (idx : List ℕ) :
    Sampler.binIndices nObs idx =
      (List.range idx.length).map
        (fun p : ℕ => (Sampler.binPass
            (fun i => (Sampler.binPopAccum (Sampler.binPop idx) i : ℤ) - 1)
            (fun _ => 0) idx).2 (p : ℤ)) :=
  rfl

/-- The binned index vector is a permutation of the input: binIndices is
the placement pass of a radix sort, writing every input element exactly
once into a distinct slot of the output and touching every slot. -/
theorem Sampler.binIndices_perm (nObs : ℕ) (idx : List ℕ) :
    (Sampler.binIndices nObs idx).Perm idx := by
  classical
  have havail : (fun i => (Sampler.binPopAccum (Sampler.binPop idx) i : ℤ) - 1) =
      fun i => (Sampler.binCum i idx : ℤ) - 1 := by
    funext i
    rw [Sampler.binPopAccum_eq]
  rw [Sampler.binIndices_def, havail]
  set avail0 : ℕ → ℤ := fun i => (Sampler.binCum i idx : ℤ) - 1 with ha
  set f : ℤ → ℕ := (Sampler.binPass avail0 (fun _ => 0) idx).2 with hf
  set ws := Sampler.binWrites avail0 idx with hw
  have hsep : Sampler.availSep avail0 idx := Sampler.availSep_init idx
  have hvals : ws.map Prod.snd = idx := Sampler.binWrites_map_snd idx avail0
  have hlen : ws.length = idx.length := by
    have hv := congrArg List.length hvals
    simpa using hv
  set P := ws.map Prod.fst with hP
  have hndP : P.Nodup := Sampler.binWrites_nodup idx avail0 hsep
  have hPmem : ∀ p ∈ P, 0 ≤ p ∧ p < (idx.length : ℤ) := by
    intro p hp
    obtain ⟨pr, hpr, rfl⟩ := List.mem_map.mp hp
    have hb := Sampler.binWrites_pos_bounds idx avail0 pr hpr
    have h1 := Sampler.binCnt_le_binCum (Sampler.binIdx pr.2) idx
    have h2 := Sampler.binCum_le_length (Sampler.binIdx pr.2) idx
    have hv : avail0 (Sampler.binIdx pr.2) =
        (Sampler.binCum (Sampler.binIdx pr.2) idx : ℤ) - 1 := rfl
    rw [hv] at hb
    omega
  set Q := (List.range idx.length).map (fun p : ℕ => (p : ℤ)) with hQ
  have hinj : Function.Injective (fun p : ℕ => (p : ℤ)) := fun a b hab =>
    Nat.cast_injective hab
  have hndQ : Q.Nodup := List.Nodup.map hinj (List.nodup_range idx.length)
  have hQmem : ∀ a : ℤ, a ∈ Q ↔ 0 ≤ a ∧ a < (idx.length : ℤ) := by
    intro a
    constructor
    · intro haq
      obtain ⟨k, hk, hka⟩ := List.mem_map.mp haq
      have hkr : k < idx.length := List.mem_range.mp hk
      rw [← hka]
      exact ⟨Int.ofNat_nonneg k, by exact_mod_cast hkr⟩
    · rintro ⟨h0, hn⟩
      have hmem : a.toNat ∈ List.range idx.length := List.mem_range.mpr (by omega)
      have hcast : ((a.toNat : ℕ) : ℤ) = a := Int.toNat_of_nonneg h0
      exact List.mem_map.mpr ⟨a.toNat, hmem, hcast⟩
  have hQlen : Q.length = idx.length := by
    rw [hQ, List.length_map, List.length_range]
  have hPQ : P.Perm Q := by
    have hsub : P.toFinset ⊆ Q.toFinset := by
      intro a haf
      rw [List.mem_toFinset] at haf ⊢
      exact (hQmem a).mpr (hPmem a haf)
    have hcards : Q.toFinset.card ≤ P.toFinset.card := by
      rw [List.toFinset_card_of_nodup hndP, List.toFinset_card_of_nodup hndQ, hQlen]
      rw [hP, List.length_map, hlen]
    have heq : P.toFinset = Q.toFinset := Finset.eq_of_subset_of_card_le hsub hcards
    refine (List.perm_ext_iff_of_nodup hndP hndQ).mpr ?_
    intro a
    rw [← List.mem_toFinset, ← List.mem_toFinset (a := a) (l := Q), heq]
  have hmapP : P.map f = idx := by
    rw [hP, List.map_map]
    have hcg : ws.map (f ∘ Prod.fst) = ws.map Prod.snd := by
      apply List.map_congr_left
      intro pr hpr
      exact Sampler.binPass_writes idx avail0 (fun _ => 0) pr hsep hpr
    rw [hcg, hvals]
  have hstep1 : ((List.range idx.length).map fun p : ℕ => f (p : ℤ)) = Q.map f := by
    rw [hQ, List.map_map]
    rfl
  rw [hstep1]
  have hfin : (Q.map f).Perm (P.map f) := hPQ.symm.map f
  rw [hmapP] at hfin
  exact hfin

/-- The tabulation feeding appendSamples counts each row's draws,
whether or not the locality binning pass is taken. -/
theorem Sampler.appendSamples_eq (nObs : ℕ) (idx : List ℕ) :
    Sampler.appendSamples nObs idx =
      Sampler.appendFrom (fun r => idx.count r) 0 (List.range nObs) := by
  have hbin : Sampler.countSamples (Sampler.binIndices nObs idx) = fun r => idx.count r := by
    funext r
    rw [Sampler.countSamples_apply, (Sampler.binIndices_perm nObs idx).count_eq]
  have hplain : Sampler.countSamples idx = fun r => idx.count r := by
    funext r
    rw [Sampler.countSamples_apply]
  unfold Sampler.appendSamples
  by_cases hb : 0 < Sampler.binIdx nObs
  · rw [if_pos hb, hbin]
  · rw [if_neg hb, hplain]

/-- The emitted sample counts are the positive per-row counts, in row
order. -/
theorem Sampler.appendFrom_map_snd (sCountRow : ℕ → ℕ) :
    ∀ (rows : List ℕ) (rowPrev : ℕ),
      (Sampler.appendFrom sCountRow rowPrev rows).map Prod.snd =
        (rows.filter (fun r => decide (0 < sCountRow r))).map sCountRow := by
  intro rows
  induction rows with
  | nil => intro rowPrev; rfl
  | cons row rest ih =>
      intro rowPrev
      rw [Sampler.appendFrom]
      by_cases h : 0 < sCountRow row
      · rw [if_pos h, List.map_cons, ih, List.filter_cons, if_pos (by simpa using h),
          List.map_cons]
      · rw [if_neg h, ih, List.filter_cons, if_neg (by simpa using h)]

/-- Sums of two pointwise-added maps split. -/
theorem Sampler.sum_map_add_aux (f g : ℕ → ℕ) (l : List ℕ) :
    (l.map (fun r => f r + g r)).sum = (l.map f).sum + (l.map g).sum := by
  induction l with
  | nil => rfl
  | cons x xs ih =>
      rw [List.map_cons, List.map_cons, List.map_cons, List.sum_cons, List.sum_cons,
        List.sum_cons, ih]
      omega

/-- The indicator of a row below n sums to one over the range. -/
theorem Sampler.sum_indicator_range (a n : ℕ) (h : a < n) :
    ((List.range n).map (fun r => if a = r then 1 else 0)).sum = 1 := by
  induction n with
  | zero => omega
  | succ m ih =>
      rw [List.range_succ, List.map_append, List.sum_append]
      by_cases ham : a < m
      · rw [ih ham]
        have hne : a ≠ m := by omega
        simp [hne]
      · have ham2 : a = m := by omega
        have hz : ((List.range m).map (fun r => if a = r then 1 else 0)).sum = 0 := by
          apply List.sum_eq_zero
          intro x hx
          obtain ⟨r, hr, hrx⟩ := List.mem_map.mp hx
          have hrm : r < m := List.mem_range.mp hr
          rw [← hrx, if_neg (by omega)]
        rw [hz, ham2]
        simp

/-- Summing all per-row counts over the observation range recovers the
number of draws, provided every draw is a valid row. -/
theorem Sampler.sum_count_range (nObs : ℕ) (idx : List ℕ) (h : ∀ i ∈ idx, i < nObs) :
    ((List.range nObs).map (fun r => idx.count r)).sum = idx.length := by
  induction idx with
  | nil => simp
  | cons a t ih =>
      have ha : a < nObs := h a (List.mem_cons_self a t)
      have ht : ∀ i ∈ t, i < nObs := fun i hi => h i (List.mem_cons_of_mem a hi)
      have hcong : (List.range nObs).map (fun r => (a :: t).count r) =
          (List.range nObs).map (fun r => t.count r + if a = r then 1 else 0) := by
        apply List.map_congr_left
        intro r _
        rw [List.count_cons]
        by_cases hra : a = r
        · rw [if_pos hra, if_pos (show (a == r) = true by simp [hra])]
        · rw [if_neg hra, if_neg (show ¬ (a == r) = true by simp [hra])]
      rw [hcong, Sampler.sum_map_add_aux, ih ht, Sampler.sum_indicator_range a nObs ha]
      simp

/-- Total of emitted sample counts is the total of the per-row counts
over the walked rows. -/
theorem Sampler.appendFrom_sum (sCountRow : ℕ → ℕ) :
    ∀ (rows : List ℕ) (rowPrev : ℕ),
      ((Sampler.appendFrom sCountRow rowPrev rows).map Prod.snd).sum =
        (rows.map sCountRow).sum := by
  intro rows
  induction rows with
  | nil => intro rowPrev; rfl
  | cons row rest ih =>
      intro rowPrev
      rw [Sampler.appendFrom, List.map_cons, List.sum_cons]
      by_cases h : 0 < sCountRow row
      · rw [if_pos h, List.map_cons, List.sum_cons, ih]
      · rw [if_neg h, ih]
        omega

/-- C2: after Sampler::sample draws an index vector over [0, nObs), the
SamplerNux records emitted by Sampler::appendSamples carry sample counts
summing to the number of draws (nSamp), and when the draw has no
repeated index, as in sampling without replacement, every emitted
sCount equals 1; unsampled rows contribute no record. -/
theorem Sampler.appendSamples_sCount_total (nObs : ℕ) (idx : List ℕ)
    (h : ∀ i ∈ idx, i < nObs) :
    (((Sampler.appendSamples nObs idx).map Prod.snd).sum = idx.length) ∧
    (idx.Nodup → ∀ pr ∈ Sampler.appendSamples nObs idx, pr.2 = 1) := by
  rw [Sampler.appendSamples_eq]
  constructor
  · rw [Sampler.appendFrom_sum]
    exact Sampler.sum_count_range nObs idx h
  · intro hnd pr hpr
    have h2 : pr.2 ∈ (Sampler.appendFrom (fun r => idx.count r) 0 (List.range nObs)).map
        Prod.snd := List.mem_map_of_mem Prod.snd hpr
    rw [Sampler.appendFrom_map_snd] at h2
    obtain ⟨r, hr, hval⟩ := List.mem_map.mp h2
    have hpos : 0 < idx.count r := by
      have hf := List.mem_filter.mp hr
      simpa using hf.2
    have hle1 : idx.count r ≤ 1 := List.nodup_iff_count_le_one.mp hnd r
    have hval2 : idx.count r = pr.2 := hval
    omega

/-- Witness for C2 at nObs = 5 and draw [3, 1, 3]. -/
theorem Sampler.appendSamples_sCount_total_witness :
    ((Sampler.appendSamples 5 [3, 1, 3]).map Prod.snd).sum = [3, 1, 3].length :=
  (Sampler.appendSamples_sCount_total 5 [3, 1, 3] (by decide)).1

/-- Prefix-summing the emitted delRow gaps recovers exactly the rows
with positive count, in order: the round trip between appendSamples and
sampledRows. -/
theorem Sampler.appendFrom_roundTrip (sCountRow : ℕ → ℕ) :
    ∀ (rows : List ℕ) (rowPrev : ℕ),
      (∀ r ∈ rows, rowPrev ≤ r) → rows.Pairwise (· < ·) →
      Sampler.sampledRowsFrom rowPrev (Sampler.appendFrom sCountRow rowPrev rows) =
        rows.filter (fun r => decide (0 < sCountRow r)) := by
  intro rows
  induction rows with
  | nil => intro rowPrev _ _; rfl
  | cons row rest ih =>
      intro rowPrev hle hpw
      have hpw2 := List.pairwise_cons.mp hpw
      rw [Sampler.appendFrom]
      by_cases h : 0 < sCountRow row
      · rw [if_pos h, Sampler.sampledRowsFrom]
        have hrow : rowPrev + (row - rowPrev) = row := by
          have := hle row (List.mem_cons_self row rest)
          omega
        rw [hrow, ih row (fun r hr => le_of_lt (hpw2.1 r hr)) hpw2.2,
          List.filter_cons, if_pos (by simpa using h)]
      · rw [if_neg h, ih rowPrev (fun r hr => hle r (List.mem_cons_of_mem row hr)) hpw2.2,
          List.filter_cons, if_neg (by simpa using h)]

/-- The bagRows bit walk sets exactly the bits of the recovered rows. -/
theorem Sampler.bagRowsBits_spec :
    ∀ (xs : List (ℕ × ℕ)) (row : ℕ) (bits : ℕ → Bool) (r : ℕ),
      Sampler.bagRowsBits row bits xs r = true ↔
        (bits r = true ∨ r ∈ Sampler.sampledRowsFrom row xs) := by
  intro xs
  induction xs with
  | nil =>
      intro row bits r
      rw [Sampler.bagRowsBits, Sampler.sampledRowsFrom]
      simp
  | cons nux rest ih =>
      intro row bits r
      rw [Sampler.bagRowsBits, Sampler.sampledRowsFrom, ih, List.mem_cons,
        Function.update_apply]
      by_cases hr : r = row + nux.1
      · simp [hr]
      · simp [hr]

/-- C3: the SamplerNux delta encoding round-trips.  appendSamples emits
one record per sampled row in strictly ascending row order, with delRow
the gap from the previously retained row (the first record keeping its
absolute row index); prefix-summing delRow, as Sampler::sampledRows and
Sampler::bagRows do, recovers exactly the set of distinct sampled rows
in ascending order. -/
theorem Sampler.samplerNux_roundTrip (nObs : ℕ) (idx : List ℕ)
    (h : ∀ i ∈ idx, i < nObs) :
    Sampler.sampledRows (Sampler.appendSamples nObs idx) =
      (List.range nObs).filter (fun r => decide (0 < idx.count r)) ∧
    (Sampler.sampledRows (Sampler.appendSamples nObs idx)).Pairwise (· < ·) ∧
    (∀ r, r ∈ Sampler.sampledRows (Sampler.appendSamples nObs idx) ↔ r ∈ idx) ∧
    (∀ r, Sampler.bagRowsBits 0 (fun _ => false) (Sampler.appendSamples nObs idx) r = true ↔
      r ∈ Sampler.sampledRows (Sampler.appendSamples nObs idx)) := by
  have hmain : Sampler.sampledRows (Sampler.appendSamples nObs idx) =
      (List.range nObs).filter (fun r => decide (0 < idx.count r)) := by
    rw [Sampler.appendSamples_eq]
    unfold Sampler.sampledRows
    exact Sampler.appendFrom_roundTrip (fun r => idx.count r) (List.range nObs) 0
      (fun r _ => Nat.zero_le r) (List.pairwise_lt_range nObs)
  refine ⟨hmain, ?_, ?_, ?_⟩
  · rw [hmain]
    exact (List.pairwise_lt_range nObs).filter _
  · intro r
    rw [hmain, List.mem_filter, List.mem_range]
    constructor
    · rintro ⟨_, hp⟩
      have hpos : 0 < idx.count r := by simpa using hp
      exact List.count_pos_iff.mp hpos
    · intro hr
      exact ⟨h r hr, by simpa using List.count_pos_iff.mpr hr⟩
  · intro r
    rw [Sampler.bagRowsBits_spec]
    simp [Sampler.sampledRows]

/-- Witness for C3 at nObs = 5 and draw [3, 1, 3]. -/
theorem Sampler.samplerNux_roundTrip_witness :
    Sampler.sampledRows (Sampler.appendSamples 5 [3, 1, 3]) =
      (List.range 5).filter (fun r => decide (0 < [3, 1, 3].count r)) :=
  (Sampler.samplerNux_roundTrip 5 [3, 1, 3] (by decide)).1

/-- One step of the splitRuns loop in closed form: the candidate state
moves to (subset, trial) exactly when the trial Gini strictly improves
the running information. -/
theorem SFCartCtg.splitRuns_body (ctgSum : List ℚ) (runSum : ℕ → ℕ → ℚ) (sum : ℚ)
    (slotSup : ℕ) (st : ℕ × ℚ) (subset : ℕ) :
    (let m := SFCartCtg.subsetAccum ctgSum runSum slotSup subset
     let r := SplitAccumCtg.infoSplit m.2.1 m.2.2 m.1 (sum - m.1) st.2
     if r.1 then (subset, r.2) else (st.1, r.2)) =
      (if st.2 < SFCartCtg.subsetInfo ctgSum runSum sum slotSup subset
       then (subset, SFCartCtg.subsetInfo ctgSum runSum sum slotSup subset) else st) := by
  unfold SplitAccumCtg.infoSplit SFCartCtg.subsetInfo
  by_cases hc : st.2 < (SFCartCtg.subsetAccum ctgSum runSum slotSup subset).2.1 /
      (SFCartCtg.subsetAccum ctgSum runSum slotSup subset).1 +
      (SFCartCtg.subsetAccum ctgSum runSum slotSup subset).2.2 /
      (sum - (SFCartCtg.subsetAccum ctgSum runSum slotSup subset).1)
  · simp [hc]
  · simp [hc]

/-- The running information of the argmax fold is the running maximum. -/
theorem SFCartCtg.argFold_snd (g : ℕ → ℚ) (L : List ℕ) :
    ∀ st : ℕ × ℚ,
      (L.foldl (fun st s => if st.2 < g s then (s, g s) else st) st).2 =
        L.foldl (fun acc s => max acc (g s)) st.2 := by
  induction L with
  | nil => intro st; rfl
  | cons s L ih =>
      intro st
      rw [List.foldl_cons, List.foldl_cons, ih]
      congr 1
      by_cases h : st.2 < g s
      · rw [if_pos h]
        exact (max_eq_right (le_of_lt h)).symm
      · rw [if_neg h]
        exact (max_eq_left (not_lt.mp h)).symm

/-- The running maximum dominates its seed and every evaluated value. -/
theorem SFCartCtg.maxFold_le (g : ℕ → ℚ) (L : List ℕ) :
    ∀ x : ℚ, x ≤ L.foldl (fun acc s => max acc (g s)) x ∧
      ∀ s ∈ L, g s ≤ L.foldl (fun acc s => max acc (g s)) x := by
  induction L with
  | nil =>
      intro x
      exact ⟨le_refl x, fun s hs => absurd hs (List.not_mem_nil s)⟩
  | cons s L ih =>
      intro x
      rw [List.foldl_cons]
      refine ⟨le_trans (le_max_left x (g s)) (ih (max x (g s))).1, ?_⟩
      intro t ht
      rcases List.mem_cons.mp ht with rfl | ht2
      · exact le_trans (le_max_right x (g t)) (ih (max x (g t))).1
      · exact (ih (max x (g s))).2 t ht2

/-- The argmax fold either never moves or lands on an evaluated subset
attaining the final information. -/
theorem SFCartCtg.argFold_attain (g : ℕ → ℚ) (L : List ℕ) :
    ∀ st : ℕ × ℚ,
      (L.foldl (fun st s => if st.2 < g s then (s, g s) else st) st) = st ∨
      (∃ s ∈ L,
        (L.foldl (fun st s => if st.2 < g s then (s, g s) else st) st).1 = s ∧
        g s = (L.foldl (fun st s => if st.2 < g s then (s, g s) else st) st).2) := by
  induction L with
  | nil => intro st; left; rfl
  | cons s L ih =>
      intro st
      rw [List.foldl_cons]
      by_cases h : st.2 < g s
      · rw [if_pos h]
        rcases ih (s, g s) with heq | ⟨t, ht, h1, h2⟩
        · right
          exact ⟨s, List.mem_cons_self s L, by rw [heq], by rw [heq]⟩
        · right
          exact ⟨t, List.mem_cons_of_mem s ht, h1, h2⟩
      · rw [if_neg h]
        rcases ih st with heq | ⟨t, ht, h1, h2⟩
        · left
          exact heq
        · right
          exact ⟨t, List.mem_cons_of_mem s ht, h1, h2⟩

/-- splitRuns in terms of the closed-form argmax fold. -/
theorem SFCartCtg.splitRuns_eq_fold (ctgSum : List ℚ) (runSum : ℕ → ℕ → ℚ)
    (sum : ℚ) (k : ℕ) (info0 : ℚ) :
    SFCartCtg.splitRuns ctgSum runSum sum k info0 =
      (List.range' 1 ((1 <<< (k - 1)) - 1)).foldl
        (fun st s =>
          if st.2 < SFCartCtg.subsetInfo ctgSum runSum sum (k - 1) s
          then (s, SFCartCtg.subsetInfo ctgSum runSum sum (k - 1) s) else st)
        (0, info0) := by
  unfold SFCartCtg.splitRuns
  exact List.foldl_ext _ _ _
    (fun st s _ => SFCartCtg.splitRuns_body ctgSum runSum sum (k - 1) st s)

/-- C7: for a multi-class factor candidate whose effective run count
after deWide is k, splitRuns enumerates exactly the nonempty
binary-encoded subsets 1 .. 2^(k-1) - 1 of the first k - 1 run slots
(2^(k-1) - 1 Gini evaluations), and whenever some subset strictly
improves the initial candidate information, the recorded lhBits is an
enumerated subset whose Gini information equals the final information
and dominates every enumerated subset. -/
theorem SFCartCtg.splitRuns_enumeration_argmax
    (ctgSum : List ℚ) (runSum : ℕ → ℕ → ℚ) (sum : ℚ) (k : ℕ) (info0 : ℚ)
    (himp : ∃ s ∈ List.range' 1 ((1 <<< (k - 1)) - 1),
      info0 < SFCartCtg.subsetInfo ctgSum runSum sum (k - 1) s) :
    ((List.range' 1 ((1 <<< (k - 1)) - 1)).length = 2 ^ (k - 1) - 1) ∧
    (∀ s, s ∈ List.range' 1 ((1 <<< (k - 1)) - 1) ↔
      (s ≠ 0 ∧ ∀ j, s.testBit j = true → j < k - 1)) ∧
    (SFCartCtg.splitRuns ctgSum runSum sum k info0).1 ∈
      List.range' 1 ((1 <<< (k - 1)) - 1) ∧
    SFCartCtg.subsetInfo ctgSum runSum sum (k - 1)
        (SFCartCtg.splitRuns ctgSum runSum sum k info0).1 =
      (SFCartCtg.splitRuns ctgSum runSum sum k info0).2 ∧
    ∀ s ∈ List.range' 1 ((1 <<< (k - 1)) - 1),
      SFCartCtg.subsetInfo ctgSum runSum sum (k - 1) s ≤
        (SFCartCtg.splitRuns ctgSum runSum sum k info0).2 := by
  have hshift : (1 <<< (k - 1)) = 2 ^ (k - 1) := by
    rw [Nat.shiftLeft_eq, one_mul]
  have hpow1 : 1 ≤ 2 ^ (k - 1) := Nat.one_le_two_pow
  have hlen : (List.range' 1 ((1 <<< (k - 1)) - 1)).length = 2 ^ (k - 1) - 1 := by
    rw [List.length_range', hshift]
  have hmem : ∀ s, s ∈ List.range' 1 ((1 <<< (k - 1)) - 1) ↔
      (s ≠ 0 ∧ ∀ j, s.testBit j = true → j < k - 1) := by
    intro s
    rw [List.mem_range'_1, hshift]
    constructor
    · rintro ⟨h1, h2⟩
      refine ⟨by omega, ?_⟩
      intro j hj
      by_contra hjge
      have hge : k - 1 ≤ j := by omega
      have hfb : s.testBit j = false :=
        Nat.testBit_lt_two_pow
          (Nat.lt_of_lt_of_le (by omega : s < 2 ^ (k - 1))
            (Nat.pow_le_pow_right (by norm_num) hge))
      rw [hfb] at hj
      cases hj
    · rintro ⟨h0, hbits⟩
      have hlt : s < 2 ^ (k - 1) := by
        apply Nat.lt_pow_two_of_testBit
        intro i hi
        cases hb : s.testBit i
        · rfl
        · exact absurd (hbits i hb) (by omega)
      exact ⟨by omega, by omega⟩
  have hfold := SFCartCtg.splitRuns_eq_fold ctgSum runSum sum k info0
  have hsnd : (SFCartCtg.splitRuns ctgSum runSum sum k info0).2 =
      (List.range' 1 ((1 <<< (k - 1)) - 1)).foldl
        (fun acc s => max acc (SFCartCtg.subsetInfo ctgSum runSum sum (k - 1) s))
        info0 := by
    rw [hfold]
    exact SFCartCtg.argFold_snd (SFCartCtg.subsetInfo ctgSum runSum sum (k - 1)) _ (0, info0)
  have hdom : ∀ s ∈ List.range' 1 ((1 <<< (k - 1)) - 1),
      SFCartCtg.subsetInfo ctgSum runSum sum (k - 1) s ≤
        (SFCartCtg.splitRuns ctgSum runSum sum k info0).2 := by
    intro s hs
    rw [hsnd]
    exact (SFCartCtg.maxFold_le (SFCartCtg.subsetInfo ctgSum runSum sum (k - 1)) _ info0).2 s hs
  have hatt : (SFCartCtg.splitRuns ctgSum runSum sum k info0).1 ∈
      List.range' 1 ((1 <<< (k - 1)) - 1) ∧
      SFCartCtg.subsetInfo ctgSum runSum sum (k - 1)
          (SFCartCtg.splitRuns ctgSum runSum sum k info0).1 =
        (SFCartCtg.splitRuns ctgSum runSum sum k info0).2 := by
    rcases SFCartCtg.argFold_attain (SFCartCtg.subsetInfo ctgSum runSum sum (k - 1))
        (List.range' 1 ((1 <<< (k - 1)) - 1)) (0, info0) with heq | ⟨t, ht, h1, h2⟩
    · exfalso
      obtain ⟨s0, hs0, himp0⟩ := himp
      have hf2 : (SFCartCtg.splitRuns ctgSum runSum sum k info0).2 = info0 := by
        rw [hfold, heq]
      have hle := hdom s0 hs0
      rw [hf2] at hle
      exact absurd hle (not_le.mpr himp0)
    · constructor
      · rw [hfold, h1]
        exact ht
      · rw [hfold, h1]
        exact h2
  exact ⟨hlen, hmem, hatt.1, hatt.2, hdom⟩

/-- Witness for C7: two categories, effective run count 2, per-category
node sums [1, 1], total response 2, run slot 0 pure in category 0, and
initial information 0. -/
theorem SFCartCtg.splitRuns_enumeration_argmax_witness :
    (SFCartCtg.splitRuns [1, 1] (fun slot ctg => if slot = 0 ∧ ctg = 0 then 1 else 0)
        2 2 0).1 ∈ List.range' 1 ((1 <<< (2 - 1)) - 1) :=
  (SFCartCtg.splitRuns_enumeration_argmax [1, 1]
    (fun slot ctg => if slot = 0 ∧ ctg = 0 then 1 else 0) 2 2 0
    ⟨1, by decide, by
      have hfil : List.filter (fun slot => Nat.testBit 1 slot) (List.range 1) = [0] := by
        decide
      norm_num [SFCartCtg.subsetInfo, SFCartCtg.subsetAccum, SFCartCtg.subsetSumCtg,
        List.enum, List.enumFrom, hfil]⟩).2.2.1

/-- getD through a map, within bounds. -/
theorem FramemapBridge.getD_map_aux (l : List ℕ) (f : ℕ → ℕ) (c : ℕ) (h : c < l.length) :
    (l.map f).getD c 0 = f (l.getD c 0) := by
  rw [List.getD_eq_getElem _ _ (by simpa using h), List.getD_eq_getElem _ _ h,
    List.getElem_map]

/-- C9: FactorRemap leaves a column alone when its test levels equal the
training levels; otherwise it recodes the column and reports a warning
exactly when some test level was not observed in training; every level
code whose test level is unseen is sent by the one-based match table to
the proxy code colTrain.length() + 1, so its zero-based remapped value
is colTrain.length(), a level index outside [0, cardinality) that no
trained factor-split bit set over the training levels can contain. -/
theorem FramemapBridge.factorRemap_proxy (colTest colTrain xCol : List ℕ) :
    (FramemapBridge.factorRemapCol colTest colTest xCol = (xCol, false)) ∧
    (colTest ≠ colTrain →
      ((FramemapBridge.factorRemapCol colTest colTrain xCol).2 = true ↔
        ∃ s ∈ colTest, s ∉ colTrain)) ∧
    (∀ i c, i < xCol.length → xCol.getD i 0 = c → c < colTest.length →
      colTest.getD c 0 ∉ colTrain →
      (FramemapBridge.colMatchOf colTest colTrain).getD c 0 = colTrain.length + 1 ∧
      (FramemapBridge.factorRemapCol colTest colTrain xCol).1.getD i 0 =
        colTrain.length ∧
      (∀ bits : Finset ℕ, bits ⊆ Finset.range colTrain.length →
        (FramemapBridge.factorRemapCol colTest colTrain xCol).1.getD i 0 ∉ bits)) := by
  refine ⟨by simp [FramemapBridge.factorRemapCol], ?_, ?_⟩
  · intro hne
    unfold FramemapBridge.factorRemapCol
    rw [if_neg hne]
    simp [FramemapBridge.anyNonMatch, List.any_eq_true]
  · intro i c hi hic hc hunseen
    have hneq : colTest ≠ colTrain := by
      intro heq
      apply hunseen
      rw [← heq]
      rw [List.getD_eq_getElem _ _ hc]
      exact List.getElem_mem hc
    have hnone : colTrain.indexOf? (colTest.getD c 0) = none :=
      List.indexOf?_eq_none_iff.mpr (fun x hx hbeq => hunseen (by
        have hxs : x = colTest.getD c 0 := by simpa using hbeq
        exact hxs ▸ hx))
    have hmatch : (FramemapBridge.colMatchOf colTest colTrain).getD c 0 =
        colTrain.length + 1 := by
      unfold FramemapBridge.colMatchOf
      rw [FramemapBridge.getD_map_aux colTest _ c hc, hnone]
    have hremap : (FramemapBridge.factorRemapCol colTest colTrain xCol).1.getD i 0 =
        colTrain.length := by
      unfold FramemapBridge.factorRemapCol
      rw [if_neg hneq]
      rw [FramemapBridge.getD_map_aux xCol _ i hi, hic, hmatch]
      omega
    refine ⟨hmatch, hremap, ?_⟩
    intro bits hsub hbmem
    rw [hremap] at hbmem
    have := Finset.mem_range.mp (hsub hbmem)
    omega

/-- Witness for C9: training levels [0], test levels [0, 1], column
holding the unseen code 1. -/
theorem FramemapBridge.factorRemap_proxy_witness :
    (FramemapBridge.factorRemapCol [0, 1] [0] [1]).1.getD 0 0 = 1 :=
  ((FramemapBridge.factorRemap_proxy [0, 1] [0] [1]).2.2 0 1 (by decide) (by decide)
    (by decide) (by decide)).2.1
